import Mathlib

/-!
Verification of the SQL-tools function app (sql safety pipeline, parameter
binding, and schema catalog assembly) against its natural-language
specification.  The JavaScript source is shallowly embedded: strings are
`List Char`, the regex-based checks are translated into explicit character
scanners with the same semantics, JSON scalar values are an inductive type,
and fallible code returns `Except`/`Option`.
-/

/-! ## Character classes (JS regex `\s`, `\w`, ASCII case folding) -/

/-- JS regex whitespace class `\s`, restricted to the ASCII range. -/
def isWS (c : Char) : Bool :=
  c = ' ' ∨ c = '\t' ∨ c = '\n' ∨ c = '\r' ∨ c = '\x0b' ∨ c = '\x0c'

/-- JS regex word-character class `\w` = `[A-Za-z0-9_]`. -/
def isWordChar (c : Char) : Bool :=
  ('a' ≤ c ∧ c ≤ 'z') ∨ ('A' ≤ c ∧ c ≤ 'Z') ∨ ('0' ≤ c ∧ c ≤ '9') ∨ c = '_'

/-- Identifier-start class `[A-Za-z_]` of the `:name` placeholder regex. -/
def isIdStart (c : Char) : Bool :=
  ('a' ≤ c ∧ c ≤ 'z') ∨ ('A' ≤ c ∧ c ≤ 'Z') ∨ c = '_'

/-- ASCII lower-casing, as used by case-insensitive (`/i`) regex matching. -/
def asciiLower (c : Char) : Char :=
  if 'A' ≤ c ∧ c ≤ 'Z' then Char.ofNat (c.toNat + 32) else c

/-- JS `trim()`: strip leading and trailing whitespace. -/
def trimS (l : List Char) : List Char :=
  ((l.dropWhile isWS).reverse.dropWhile isWS).reverse

/-! ## Generic scanners used to embed the regex tests -/

/-- Test: `pat` matches case-insensitively at the head of `l`
    (`pat` is given already lower-cased). -/
def ciStartsWith : List Char → List Char → Bool
  | [], _ => true
  | _ :: _, [] => false
  | k :: kw, c :: t => (asciiLower c == k) && ciStartsWith kw t

/-- Test: `l` contains `pat` as a contiguous segment (case-sensitive),
    i.e. the regex test for a literal pattern. -/
def containsSeg (pat : List Char) : List Char → Bool
  | [] => pat.isPrefixOf []
  | c :: rest => pat.isPrefixOf (c :: rest) || containsSeg pat rest

/-- Test: `kw` (lower-cased) matches case-insensitively at the head of the text and
    is followed by a word boundary (`\b` after the keyword): end of input or a
    non-word character. -/
def kwMatch : List Char → List Char → Bool
  | [], [] => true
  | [], c :: _ => !isWordChar c
  | _ :: _, [] => false
  | k :: kw, c :: t => (asciiLower c == k) && kwMatch kw t

/-- The banned destructive/DDL keyword alternation of
    `/\b(delete|insert|update|merge|alter|drop|create|grant|revoke|truncate|exec|execute|xp_|sp_)\b/i`. -/
def kwList : List (List Char) :=
  [['d','e','l','e','t','e'], ['i','n','s','e','r','t'], ['u','p','d','a','t','e'],
   ['m','e','r','g','e'], ['a','l','t','e','r'], ['d','r','o','p'],
   ['c','r','e','a','t','e'], ['g','r','a','n','t'], ['r','e','v','o','k','e'],
   ['t','r','u','n','c','a','t','e'], ['e','x','e','c'],
   ['e','x','e','c','u','t','e'], ['x','p','_'], ['s','p','_']]

/-- Some banned keyword matches (with its trailing word boundary) at the head. -/
def kwAt (l : List Char) : Bool :=
  kwList.any (fun kw => kwMatch kw l)

/-- Scan for a banned keyword occurrence; `pb` records whether the previous
    character was a word boundary (start of input or a non-word character),
    which is what `\b` before a keyword requires. -/
def bannedKwAux : Bool → List Char → Bool
  | _, [] => false
  | pb, c :: rest => (pb && kwAt (c :: rest)) || bannedKwAux (!isWordChar c) rest

/-- Test of the keyword part of the banned regex over the whole text. -/
def bannedKwB (l : List Char) : Bool :=
  bannedKwAux true l

/-- The full banned-token test
    `/\b(...)\b|;|--|\/\*/i` of `validateSelectOnly`. -/
def bannedB (l : List Char) : Bool :=
  bannedKwB l || containsSeg [';'] l || containsSeg ['-','-'] l ||
    containsSeg ['/','*'] l

/-- lower-cased `select`. -/
def selectKw : List Char := ['s','e','l','e','c','t']

/-- lower-cased `top`. -/
def topKw : List Char := ['t','o','p']

/-- The head character exists and is whitespace. -/
def headIsWS : List Char → Bool
  | [] => false
  | c :: _ => isWS c

/-- The head character exists and is `(` or a digit. -/
def headIsParenOrDigit : List Char → Bool
  | [] => false
  | c :: _ => c = '(' || c.isDigit

/-- The test `/^select\s/i`: the text starts with `select` (case-insensitive)
    followed by one whitespace character. -/
def startsSelectWsB (l : List Char) : Bool :=
  ciStartsWith selectKw l && headIsWS (l.drop 6)

/-- Error classes thrown by the validator (spec: both are `ValidationError`). -/
inductive VError where
  | notSelect
  | banned
deriving DecidableEq, Repr

instance : DecidableEq (Except VError (List Char)) := fun a b =>
  match a, b with
  | .error e, .error f =>
      if h : e = f then isTrue (by rw [h]) else isFalse (by simp [h])
  | .ok x, .ok y =>
      if h : x = y then isTrue (by rw [h]) else isFalse (by simp [h])
  | .error _, .ok _ => isFalse (by simp)
  | .ok _, .error _ => isFalse (by simp)

/-- Embedding of `validateSelectOnly(sql)` from `src/lib/sqlSafety.js`: trim, require the
    statement to start with `select` + whitespace, then reject banned
    keywords, semicolons and comment markers; return the trimmed text. -/
def validateSelectOnly (sql : List Char) : Except VError (List Char) :=
  let s := trimS sql
  if !startsSelectWsB s then .error .notSelect
  else if bannedB s then .error .banned
  else .ok s

/-- Spec-side predicate for claim C3's wording: the text starts with the
    SELECT keyword at a word boundary (case-insensitive): `select` followed by
    end of input or a non-word character. -/
def startsSelectWordBoundary (l : List Char) : Bool :=
  ciStartsWith selectKw l &&
    (match l.drop 6 with
     | c :: _ => !isWordChar c
     | [] => true)

/-! ## `injectTopLimit` -/

/-- A `TOP` clause starts here: `top` (case-insensitive) then `\s*` then an
    opening parenthesis or a digit (the `top\s*(\(|\d)` tail of the regex). -/
def topClauseHead (l : List Char) : Bool :=
  ciStartsWith topKw l && headIsParenOrDigit ((l.drop 3).dropWhile isWS)

/-- The regex `select\s+top\s*(\(|\d)` matches at the head of the text. -/
def topAfterSelectAt (l : List Char) : Bool :=
  startsSelectWsB l && topClauseHead ((l.drop 6).dropWhile isWS)

/-- Scan of `/\bselect\s+top\s*(\(|\d)/i.test(sql)`; `pb` tracks the word
    boundary before the candidate `select`. -/
def hasTopAux : Bool → List Char → Bool
  | _, [] => false
  | pb, c :: rest => (pb && topAfterSelectAt (c :: rest)) || hasTopAux (!isWordChar c) rest

/-- The `hasTop` test of `injectTopLimit`: the `select top` pattern occurs anywhere. -/
def hasTopB (l : List Char) : Bool :=
  hasTopAux true l

/-- Decimal digit character. -/
def digitChar (d : Nat) : Char := Char.ofNat (48 + d)

/-- Decimal rendering of a natural number (template-literal `${n}`),
    written with explicit fuel so that it is structurally recursive. -/
def natCharsAux : Nat → Nat → List Char → List Char
  | 0, _, acc => acc
  | fuel + 1, n, acc =>
      if n < 10 then digitChar n :: acc
      else natCharsAux fuel (n / 10) (digitChar (n % 10) :: acc)

/-- Decimal rendering of a natural number. -/
def natChars (n : Nat) : List Char := natCharsAux (n + 1) n []

/-- The inserted text `TOP(${n}) `. -/
def topInsert (n : Nat) : List Char :=
  'T' :: 'O' :: 'P' :: '(' :: (natChars n ++ [')', ' '])

/-- Embedding of `injectTopLimit(sql, n)`: if `select top` already occurs anywhere, return
    the input unchanged; otherwise rewrite the leading `^(\s*select\s+)` (with
    greedy whitespace) to `$1TOP(n) `.  A text with no such leading prefix is
    returned unchanged (the regex does not match). -/
def injectTopLimit (l : List Char) (n : Nat) : List Char :=
  if hasTopB l then l
  else
    let ws0 := l.takeWhile isWS
    let r := l.dropWhile isWS
    if ciStartsWith selectKw r then
      let sel := r.take 6
      let after := r.drop 6
      let ws1 := after.takeWhile isWS
      if ws1.isEmpty then l
      else ws0 ++ sel ++ ws1 ++ topInsert n ++ after.dropWhile isWS
    else l

/-- Consume one `TOP` clause at the head (`top`, optional whitespace, then
    either a parenthesized argument consumed through the first `)` or a bare
    digit run).  Used only by the spec-side counting function below. -/
def consumeTopClause (l : List Char) : List Char :=
  match (l.drop 3).dropWhile isWS with
  | '(' :: rest => ((rest.dropWhile (fun c => !(c = ')'))).drop 1)
  | r => r.dropWhile Char.isDigit

/-- Count the consecutive `TOP` clauses found right after the leading SELECT
    keyword (fuel-driven). -/
def countTopsAux : Nat → List Char → Nat
  | 0, _ => 0
  | fuel + 1, l =>
      if topClauseHead (l.dropWhile isWS) then
        1 + countTopsAux fuel (consumeTopClause (l.dropWhile isWS))
      else 0

/-- Spec-side measure for claims C2/C7: the number of row-limiting (`TOP`)
    clauses directly following the leading SELECT keyword of the statement
    (0 when the text does not start with `select` + whitespace). -/
def topLevelTopCount (l : List Char) : Nat :=
  if startsSelectWsB (l.dropWhile isWS) then
    countTopsAux (l.length + 1) ((l.dropWhile isWS).drop 6)
  else 0

/-! ## `toTediousNamedParams` -/

/-- Scanner for `sql.replace(/:([A-Za-z_]\w*)/g, '@$1')`: a `:` followed by an
    identifier start is replaced by `@` and the identifier is copied
    verbatim; scanning resumes after the identifier.  Fuel-driven (the fuel is
    always at least the length of the list plus one). -/
def toTediousAux : Nat → List Char → List Char
  | 0, l => l
  | _ + 1, [] => []
  | fuel + 1, c :: rest =>
      if c = ':' then
        match rest with
        | d :: rest' =>
            if isIdStart d then
              '@' :: d :: (rest'.takeWhile isWordChar ++
                toTediousAux fuel (rest'.dropWhile isWordChar))
            else ':' :: toTediousAux fuel (d :: rest')
        | [] => [':']
      else c :: toTediousAux fuel rest

/-- Embedding of `toTediousNamedParams(sql)` from `src/lib/sqlSafety.js`. -/
def toTediousNamedParams (l : List Char) : List Char :=
  toTediousAux (l.length + 1) l

/-- Head character is an identifier start (`[A-Za-z_]`). -/
def headIsIdStart : List Char → Bool
  | [] => false
  | c :: _ => isIdStart c

/-- Spec-side pointwise description of the rewrite (claim C6): every `:` that
    is immediately followed by an identifier-start character becomes `@`;
    every other character is left unchanged. -/
def colonRewrite : List Char → List Char
  | [] => []
  | c :: rest => (if c = ':' ∧ headIsIdStart rest then '@' else c) :: colonRewrite rest

/-! ## JSON scalar values, `parseInt`, the effective row limit -/

/-- Scalar JS/JSON values appearing in a request body (the spec's params are
    scalars; `date` models a JS `Date` object, with its epoch value). -/
inductive JSVal where
  | num (q : ℚ)
  | str (s : String)
  | bool (b : Bool)
  | date (ms : Int)
  | null
deriving DecidableEq, Repr

/-- JS truthiness of a scalar value. -/
def truthy : JSVal → Bool
  | .num q => !(q == 0)
  | .str s => !(s == "")
  | .bool b => b
  | .date _ => true
  | .null => false

/-- Value of a digit run. -/
def digitsToNat (ds : List Char) : Nat :=
  ds.foldl (fun a c => a * 10 + (c.toNat - 48)) 0

/-- Semantics of `parseInt(s, 10)` on a string: skip leading whitespace, optional sign,
    then the longest digit prefix; no digits means NaN (`none`). -/
def parseIntStr (s : List Char) : Option Int :=
  let t := s.dropWhile isWS
  match t with
  | '-' :: r =>
      let ds := r.takeWhile Char.isDigit
      if ds.isEmpty then none else some (-(digitsToNat ds : Int))
  | '+' :: r =>
      let ds := r.takeWhile Char.isDigit
      if ds.isEmpty then none else some (digitsToNat ds)
  | _ =>
      let ds := t.takeWhile Char.isDigit
      if ds.isEmpty then none else some (digitsToNat ds)

/-- Semantics of `parseInt(v, 10)` on a scalar value (the argument is stringified first;
    a number renders in decimal and truncates toward zero, booleans and dates
    stringify to non-numeric text). `none` models NaN. -/
def parseIntJS : JSVal → Option Int
  | .num q => some (Int.tdiv q.num (q.den : Int))
  | .str s => parseIntStr s.data
  | .bool _ => none
  | .date _ => none
  | .null => none

/-- The limit computation
    `Math.max(1, Math.min(parseInt(row_limit || ROW_LIMIT_DEFAULT, 10), 5000))`
    of the sql-query handler.  `row_limit = none` is an omitted field; a falsy
    value falls back to the configured default (an integer); NaN (`none`)
    propagates through min/max. -/
def effectiveLimit (row_limit : Option JSVal) (dflt : Int) : Option Int :=
  let base : Option Int :=
    match row_limit with
    | none => some dflt
    | some v => if truthy v then parseIntJS v else some dflt
  base.map (fun x => max 1 (min x 5000))

/-! ## Parameter binding (`runQuery` loop) -/

/-- The five wire types of the binding loop, with the bound value:
    `sql.Int`, `sql.Float`, `sql.DateTime2`, `sql.Bit`,
    `sql.NVarChar(sql.MAX)` (after string conversion). -/
inductive WireVal where
  | wInt (i : Int)
  | wFloat (q : ℚ)
  | wDate (ms : Int)
  | wBit (b : Bool)
  | wText (s : String)
deriving DecidableEq, Repr

/-- One iteration of the binding loop of `runQuery`: null/undefined values
    are skipped; whole numbers bind as `sql.Int`, other numbers as
    `sql.Float`, dates as `sql.DateTime2`, booleans as `sql.Bit`, anything
    else as text after `String(v)`. -/
def classifyBind : JSVal → Option WireVal
  | .null => none
  | .num q => if q.den = 1 then some (.wInt q.num) else some (.wFloat q)
  | .date t => some (.wDate t)
  | .bool b => some (.wBit b)
  | .str s => some (.wText s)

/-- The binding loop of `runQuery` over `Object.entries(params)`. -/
def runQueryBindings : List (String × JSVal) → List (String × WireVal)
  | [] => []
  | (k, v) :: rest =>
      match classifyBind v with
      | none => runQueryBindings rest
      | some w => (k, w) :: runQueryBindings rest

/-! ## `schemaHelpers.js` -/

/-- Static table descriptions (`getTableDescription`). -/
def getTableDescription (tableName : String) : String :=
  if tableName = "vwUsers" then "User accounts with registration dates and basic info"
  else if tableName = "vwOrders" then "Customer orders with amounts and statuses"
  else if tableName = "vwProducts" then "Product catalog with pricing and categories"
  else ""

/-- Static column descriptions (`getColumnDescription`). -/
def getColumnDescription (tableName columnName : String) : String :=
  if tableName = "vwUsers" then
    if columnName = "UserId" then "Unique identifier for each user"
    else if columnName = "CreatedAt" then "UTC timestamp when user registered"
    else if columnName = "Country" then "User country code (ISO 2-letter)"
    else if columnName = "IsActive" then "Whether user account is active"
    else ""
  else ""

/-- A query template of the schema response. -/
structure QueryTemplate where
  description : String
  template : String
deriving DecidableEq, Repr

/-- Embedding of `getCommonQueryTemplates()`: the fixed relation-independent templates. -/
def getCommonQueryTemplates : List QueryTemplate :=
  [⟨"Row count for a table", "SELECT COUNT(*) AS total FROM <schema.table>"⟩,
   ⟨"Preview rows", "SELECT TOP(:limit) * FROM <schema.table> ORDER BY 1"⟩,
   ⟨"Count by a column",
    "SELECT <column>, COUNT(*) AS cnt FROM <schema.table> GROUP BY <column> ORDER BY cnt DESC"⟩]

/-- An outgoing foreign-key edge of a relation. -/
structure FKEdge where
  column : String
  ref_table : String
  ref_column : String
deriving DecidableEq, Repr

/-- A sample-join entry. -/
structure SampleJoin where
  description : String
  template : String
deriving DecidableEq, Repr

/-- Builds one sample join for an edge (body of the `map` in
    `getSampleJoins`), including the `SalesLT.` default-schema fixup. -/
def mkSampleJoin (tableName : String) (fk : FKEdge) : SampleJoin :=
  let ref := if fk.ref_table.contains '.' then fk.ref_table
             else "SalesLT." ++ fk.ref_table
  ⟨"Join " ++ tableName ++ " with " ++ ref,
   "SELECT t1.*, t2.* FROM " ++ tableName ++ " t1 INNER JOIN " ++ ref ++
     " t2 ON t1." ++ fk.column ++ " = t2." ++ fk.ref_column⟩

/-- Embedding of `getSampleJoins(tableName, fks)`: empty when `fks` is undefined or empty,
    otherwise one join per edge of `fks.slice(0, 2)`. -/
def getSampleJoins (tableName : String) (fks : Option (List FKEdge)) : List SampleJoin :=
  match fks with
  | none => []
  | some l => if l.isEmpty then [] else (l.take 2).map (mkSampleJoin tableName)

/-! ## `sqlSchema.js`: resolver and catalog assembly -/

/-- A relation found by one of the three resolution phases. -/
structure RelObj where
  schema : String
  name : String
  type : String
deriving DecidableEq, Repr

/-- A row of the catalog-fallback query over `sys.objects` (`type` is the
    engine code `U` or `V`). -/
structure FallbackRow where
  schema_name : String
  object_name : String
  typ : String
deriving DecidableEq, Repr

/-- Server configuration of the schema endpoint. -/
structure SchemaConfig where
  viewWhitelist : String
  objectTypesDefault : String
  objectAllowlist : List String
  includeTypes : String
  excludeSchemas : List String
deriving Repr

/-- ASCII `toLowerCase()` on a string. -/
def strLower (s : String) : String :=
  ⟨s.data.map asciiLower⟩

/-- JS `a || b` over an optional string (absent and `""` are falsy). -/
def jsOrStr (a : Option String) (b : String) : String :=
  match a with
  | some s => if s = "" then b else s
  | none => b

/-- The effective object-types mode:
    `(headerMode || body?.object_types || OBJECT_TYPES_DEFAULT).toLowerCase()`. -/
def effectiveMode (headerMode bodyMode : Option String) (dflt : String) : String :=
  strLower (jsOrStr headerMode (jsOrStr bodyMode dflt))

/-- The resolver of `sqlSchema.js`: views phase (whitelist pattern), tables
    phase (allow-list), catalog fallback.  The database results of the three
    candidate queries are inputs (`viewRows`, `tableRows`, `fallbackRows`);
    the resolver decides which of them contribute.  Returns the resolved
    relation list and the `usingCatalogFallback` flag. -/
def resolveObjects (mode : String) (clientFilter : Option (List String))
    (cfg : SchemaConfig) (viewRows : List (String × String))
    (tableRows : List (String × String)) (fallbackRows : List FallbackRow) :
    List RelObj × Bool :=
  let o1 : List RelObj :=
    if mode = "views" ∨ mode = "both" then
      viewRows.map (fun v => ⟨v.1, v.2, "VIEW"⟩)
    else []
  let haveAllow : Bool :=
    !cfg.objectAllowlist.isEmpty ||
      (match clientFilter with
       | some l => !l.isEmpty
       | none => false)
  let o2 : List RelObj :=
    if (mode = "tables" ∨ mode = "both") ∧ haveAllow then
      tableRows.map (fun t => ⟨t.1, t.2, "TABLE"⟩)
    else []
  let base := o1 ++ o2
  if (mode = "tables" ∨ mode = "both" ∨ mode = "views") ∧ base.isEmpty then
    (fallbackRows.map (fun r =>
       ⟨r.schema_name, r.object_name, if r.typ = "U" then "TABLE" else "VIEW"⟩),
     true)
  else (base, false)

/-- Schema-qualified name of a resolved relation. -/
def qnameOf (o : RelObj) : String := o.schema ++ "." ++ o.name

/-- A row of the scoped `INFORMATION_SCHEMA.COLUMNS` query. -/
structure ColRow where
  qn : String
  column_name : String
  data_type : String
  is_nullable : String
  char_max_len : Option Int
deriving DecidableEq, Repr

/-- A row of the scoped primary-key query. -/
structure PkRow where
  schema_name : String
  table_name : String
  column_name : String
deriving DecidableEq, Repr

/-- A row of the scoped foreign-key query. -/
structure FkRow where
  parent_schema : String
  parent_table : String
  parent_col : String
  ref_schema : String
  ref_table : String
  ref_col : String
deriving DecidableEq, Repr

/-- A column entry of a catalog table. -/
structure CatalogColumn where
  name : String
  type : String
  nullable : Bool
  max_len : Option Int
  pk : Bool
  description : String
deriving DecidableEq, Repr

/-- A catalog entry of the `tables` array of the schema response. -/
structure CatalogTable where
  name : String
  description : String
  columns : List CatalogColumn
  fks : List FKEdge
  sample_joins : List SampleJoin
deriving DecidableEq, Repr

/-- The map `colMap[qn]` (grouping of the column rows by qualified name, in row
    order, with the truthiness-guarded `max_len`). -/
def colEntriesFor (colRows : List ColRow) (qn : String) : List (String × String × Bool × Option Int) :=
  (colRows.filter (fun r => r.qn == qn)).map (fun r =>
    (r.column_name, r.data_type, r.is_nullable == "YES",
     match r.char_max_len with
     | some v => if v = 0 then none else some v
     | none => none))

/-- The lookup `pkMap[qn]?.has(c) || false`. -/
def pkHas (pkRows : List PkRow) (qn c : String) : Bool :=
  pkRows.any (fun r => (r.schema_name ++ "." ++ r.table_name == qn) && (r.column_name == c))

/-- The map `fkMap[qn]` (grouping of the foreign-key rows by parent, in row order). -/
def fkEdgesFor (fkRows : List FkRow) (qn : String) : List FKEdge :=
  (fkRows.filter (fun r => r.parent_schema ++ "." ++ r.parent_table == qn)).map
    (fun r => ⟨r.parent_col, r.ref_schema ++ "." ++ r.ref_table, r.ref_col⟩)

/-- The expression `qn.split('.')[1]` (the bare object name; empty when absent). -/
def bareOf (qn : String) : String :=
  ((qn.splitOn ".").drop 1).headD ""

/-- The `tables = qnames.map(...)` assembly of the schema handler. -/
def buildTables (qnames : List String) (colRows : List ColRow)
    (pkRows : List PkRow) (fkRows : List FkRow) : List CatalogTable :=
  qnames.map (fun qn =>
    let bare := bareOf qn
    let edges := fkEdgesFor fkRows qn
    { name := qn
      description := getTableDescription bare
      columns := (colEntriesFor colRows qn).map (fun c =>
        { name := c.1, type := c.2.1, nullable := c.2.2.1, max_len := c.2.2.2,
          pk := pkHas pkRows qn c.1,
          description := getColumnDescription bare c.1 })
      fks := edges
      sample_joins := getSampleJoins qn (if edges.isEmpty then none else some edges) })

/-- The success body of the schema endpoint. -/
structure SchemaBody where
  tables : List CatalogTable
  common_queries : List QueryTemplate
  generated_at_utc : String
  notes : String
deriving DecidableEq, Repr

/-- The sql-schema handler, embedded as a pure function of the request data,
    the configuration and the results the database would return for each of
    the issued queries.  Returns the HTTP status and the JSON body. -/
def schemaHandler (headerMode bodyMode : Option String)
    (clientFilter : Option (List String)) (cfg : SchemaConfig)
    (viewRows : List (String × String)) (tableRows : List (String × String))
    (fallbackRows : List FallbackRow) (colRows : List ColRow)
    (pkRows : List PkRow) (fkRows : List FkRow) (nowUtc : String) :
    Nat × SchemaBody :=
  let mode := effectiveMode headerMode bodyMode cfg.objectTypesDefault
  let ro := resolveObjects mode clientFilter cfg viewRows tableRows fallbackRows
  let objects := ro.1
  let fb := ro.2
  if objects.isEmpty then
    (200, { tables := []
            common_queries := getCommonQueryTemplates
            generated_at_utc := nowUtc
            notes := "Mode=" ++ mode ++ "; views LIKE " ++ cfg.viewWhitelist ++
              "; tables from allow-list" })
  else
    let qnames := objects.map qnameOf
    (200, { tables := buildTables qnames colRows pkRows fkRows
            common_queries := getCommonQueryTemplates
            generated_at_utc := nowUtc
            notes := if fb then
                "Included: " ++ cfg.includeTypes ++ "; Excluded schemas: " ++
                  String.intercalate "," cfg.excludeSchemas
              else
                "Mode=" ++ mode ++ "; views LIKE " ++ cfg.viewWhitelist ++
                  "; tables from allow-list" })

/-! ## Generic list helpers -/

theorem mem_takeWhile_ws {p : Char → Bool} {l : List Char} {c : Char}
    (h : c ∈ l.takeWhile p) : p c = true := by
  induction l with
  | nil => simp [List.takeWhile] at h
  | cons a t ih =>
      rw [List.takeWhile_cons] at h
      by_cases hp : p a
      · simp [hp] at h
        rcases h with h | h
        · exact h ▸ hp
        · exact ih h
      · simp [hp] at h

theorem dropWhile_append_all {p : Char → Bool} {a b : List Char}
    (h : ∀ c ∈ a, p c = true) : (a ++ b).dropWhile p = b.dropWhile p := by
  induction a with
  | nil => rfl
  | cons x t ih =>
      have hx : p x = true := h x (by simp)
      simp only [List.cons_append, List.dropWhile_cons, hx, if_true]
      exact ih (fun c hc => h c (by simp [hc]))

theorem dropWhile_head_false {p : Char → Bool} {c : Char} {t : List Char}
    (h : p c = false) : (c :: t).dropWhile p = c :: t := by
  simp [List.dropWhile_cons, h]

theorem dropWhile_idem {p : Char → Bool} (l : List Char) :
    (l.dropWhile p).dropWhile p = l.dropWhile p := by
  induction l with
  | nil => rfl
  | cons c t ih =>
      by_cases hp : p c
      · simp [List.dropWhile_cons, hp, ih]
      · simp [List.dropWhile_cons, hp]

theorem takeWhile_dropWhile_eq (p : Char → Bool) (l : List Char) :
    l.takeWhile p ++ l.dropWhile p = l :=
  List.takeWhile_append_dropWhile p l

theorem length_dropWhile_le (p : Char → Bool) (l : List Char) :
    (l.dropWhile p).length ≤ l.length := by
  induction l with
  | nil => simp
  | cons c t ih =>
      by_cases hp : p c
      · simp only [List.dropWhile_cons, hp, if_true]
        exact Nat.le_trans ih (by simp)
      · simp [List.dropWhile_cons, hp]

/-! ## Whitespace and word-character facts -/

theorem ws_not_word {c : Char} (h : isWS c = true) : isWordChar c = false := by
  simp only [isWS, decide_eq_true_eq] at h
  rcases h with rfl | rfl | rfl | rfl | rfl | rfl <;> decide

theorem not_word_lower_id {c : Char} (h : isWordChar c = false) :
    asciiLower c = c := by
  unfold asciiLower
  by_cases hAZ : 'A' ≤ c ∧ c ≤ 'Z'
  · exfalso
    have : isWordChar c = true := by
      simp only [isWordChar, decide_eq_true_eq]
      tauto
    simp [this] at h
  · simp [hAZ]

theorem ws_lower_id {c : Char} (h : isWS c = true) : asciiLower c = c :=
  not_word_lower_id (ws_not_word h)

theorem ne_of_ws_of_word {c k : Char} (hc : isWS c = true)
    (hk : isWordChar k = true) : c ≠ k := by
  intro h
  rw [h] at hc
  rw [ws_not_word hc] at hk
  exact Bool.noConfusion hk

/-! ## Preservation of the banned-token test under trimming -/

theorem kwFacts : ∀ kw ∈ kwList, kw ≠ [] ∧ ∀ c ∈ kw, isWordChar c = true := by
  decide

theorem kwMatch_ws_head :
    ∀ (kw : List Char), kw ≠ [] → (∀ x ∈ kw, isWordChar x = true) →
      ∀ (c : Char) (rest : List Char), isWS c = true →
        kwMatch kw (c :: rest) = false := by
  intro kw hne hword c rest hws
  match kw with
  | [] => exact absurd rfl hne
  | k :: kw' =>
      have hk : isWordChar k = true := hword k (by simp)
      have hck : c ≠ k := ne_of_ws_of_word hws hk
      have : (asciiLower c == k) = false := by
        rw [ws_lower_id hws]
        exact beq_eq_false_iff_ne.mpr hck
      simp [kwMatch, this]

theorem kwAt_ws {c : Char} {rest : List Char} (h : isWS c = true) :
    kwAt (c :: rest) = false := by
  simp only [kwAt, List.any_eq_false]
  intro kw hkw
  rw [kwMatch_ws_head kw (kwFacts kw hkw).1 (kwFacts kw hkw).2 c rest h]
  exact Bool.false_ne_true

theorem bannedKwAux_dropWhile (l : List Char) :
    bannedKwAux true l = bannedKwAux true (l.dropWhile isWS) := by
  induction l with
  | nil => rfl
  | cons c rest ih =>
      by_cases hc : isWS c
      · simp only [List.dropWhile_cons, hc, if_true]
        rw [← ih]
        simp [bannedKwAux, kwAt_ws hc, ws_not_word hc]
      · simp [List.dropWhile_cons, hc]

theorem kwMatch_append_ws :
    ∀ (kw : List Char), (∀ x ∈ kw, isWordChar x = true) →
      ∀ (suf : List Char), (∀ c ∈ suf, isWS c = true) →
        ∀ (m : List Char), kwMatch kw (m ++ suf) = kwMatch kw m := by
  intro kw
  induction kw with
  | nil =>
      intro _ suf hsuf m
      match m with
      | [] =>
          match suf with
          | [] => rfl
          | c :: suf' =>
              have : isWordChar c = false := ws_not_word (hsuf c (by simp))
              simp [kwMatch, this]
      | c :: m' => rfl
  | cons k kw' ih =>
      intro hword suf hsuf m
      have hk : isWordChar k = true := hword k (by simp)
      match m with
      | [] =>
          match suf with
          | [] => rfl
          | c :: suf' =>
              have hws : isWS c = true := hsuf c (by simp)
              have : (asciiLower c == k) = false := by
                rw [ws_lower_id hws]
                exact beq_eq_false_iff_ne.mpr (ne_of_ws_of_word hws hk)
              simp [kwMatch, this]
      | c :: m' =>
          simp only [List.cons_append, kwMatch, List.append_eq]
          rw [ih (fun x hx => hword x (by simp [hx])) suf hsuf m']

theorem kwAt_append_ws {suf : List Char} (hsuf : ∀ c ∈ suf, isWS c = true)
    (m : List Char) : kwAt (m ++ suf) = kwAt m := by
  simp only [kwAt]
  have key : ∀ ks : List (List Char),
      (∀ kw ∈ ks, ∀ x ∈ kw, isWordChar x = true) →
      (ks.any (fun kw => kwMatch kw (m ++ suf))) =
        (ks.any (fun kw => kwMatch kw m)) := by
    intro ks hks
    induction ks with
    | nil => rfl
    | cons kw ks ihs =>
        simp only [List.any_cons]
        rw [kwMatch_append_ws kw (hks kw (by simp)) suf hsuf m,
          ihs (fun kw h => hks kw (by simp [h]))]
  exact key kwList (fun kw h => (kwFacts kw h).2)

theorem bannedKwAux_all_ws :
    ∀ (suf : List Char), (∀ c ∈ suf, isWS c = true) →
      ∀ pb, bannedKwAux pb suf = false := by
  intro suf
  induction suf with
  | nil => intro _ _; rfl
  | cons c rest ih =>
      intro h pb
      have hc : isWS c = true := h c (by simp)
      simp [bannedKwAux, kwAt_ws hc, ih (fun x hx => h x (by simp [hx]))]

theorem bannedKwAux_append_ws {suf : List Char}
    (hsuf : ∀ c ∈ suf, isWS c = true) :
    ∀ (m : List Char) (pb : Bool), bannedKwAux pb (m ++ suf) = bannedKwAux pb m := by
  intro m
  induction m with
  | nil =>
      intro pb
      simp only [List.nil_append, bannedKwAux]
      exact bannedKwAux_all_ws suf hsuf pb
  | cons c m' ih =>
      intro pb
      simp only [List.cons_append, bannedKwAux, List.append_eq]
      rw [show (c :: (m' ++ suf)) = (c :: m') ++ suf from rfl,
        kwAt_append_ws hsuf (c :: m'), ih (!isWordChar c)]

theorem trim_right_decomp (m : List Char) :
    m = (m.reverse.dropWhile isWS).reverse ++ (m.reverse.takeWhile isWS).reverse := by
  conv_lhs => rw [← List.reverse_reverse m,
    ← takeWhile_dropWhile_eq isWS m.reverse]
  rw [List.reverse_append]

theorem trim_right_ws (m : List Char) :
    ∀ c ∈ (m.reverse.takeWhile isWS).reverse, isWS c = true := by
  intro c hc
  rw [List.mem_reverse] at hc
  exact mem_takeWhile_ws hc

theorem bannedKwB_trim (l : List Char) : bannedKwB (trimS l) = bannedKwB l := by
  have h1 : bannedKwB l = bannedKwB (l.dropWhile isWS) := bannedKwAux_dropWhile l
  have h2 : bannedKwB (l.dropWhile isWS) = bannedKwB (trimS l) := by
    show bannedKwAux true _ = bannedKwAux true _
    conv_lhs => rw [trim_right_decomp (l.dropWhile isWS)]
    exact bannedKwAux_append_ws (trim_right_ws (l.dropWhile isWS)) _ true
  rw [h1, h2]

theorem prefix_ws_head {p : Char} {pat' : List Char} {c : Char} {rest : List Char}
    (hp : isWS p = false) (hc : isWS c = true) :
    (p :: pat').isPrefixOf (c :: rest) = false := by
  have : (p == c) = false := by
    refine beq_eq_false_iff_ne.mpr ?_
    intro h
    rw [h, hc] at hp
    exact Bool.noConfusion hp
  simp [List.isPrefixOf, this]

theorem containsSeg_dropWhile {p : Char} {pat' : List Char}
    (hp : isWS p = false) (l : List Char) :
    containsSeg (p :: pat') (l.dropWhile isWS) = containsSeg (p :: pat') l := by
  induction l with
  | nil => rfl
  | cons c rest ih =>
      by_cases hc : isWS c
      · simp only [List.dropWhile_cons, hc, if_true]
        rw [ih]
        simp [containsSeg, prefix_ws_head hp hc]
      · simp [List.dropWhile_cons, hc]

theorem prefix_append_ws :
    ∀ (pat : List Char), (∀ x ∈ pat, isWS x = false) →
      ∀ (suf : List Char), (∀ c ∈ suf, isWS c = true) →
        ∀ (m : List Char), pat.isPrefixOf (m ++ suf) = pat.isPrefixOf m := by
  intro pat
  induction pat with
  | nil =>
      intro _ suf _ m
      cases m <;> cases suf <;> rfl
  | cons p pat' ih =>
      intro hpat suf hsuf m
      have hp : isWS p = false := hpat p (by simp)
      match m with
      | [] =>
          match suf with
          | [] => rfl
          | c :: suf' =>
              simp only [List.nil_append]
              rw [prefix_ws_head hp (hsuf c (by simp))]
              rfl
      | c :: m' =>
          simp only [List.cons_append, List.isPrefixOf, List.append_eq]
          rw [ih (fun x hx => hpat x (by simp [hx])) suf hsuf m']

theorem containsSeg_all_ws {p : Char} {pat' : List Char} (hp : isWS p = false) :
    ∀ (suf : List Char), (∀ c ∈ suf, isWS c = true) →
      containsSeg (p :: pat') suf = false := by
  intro suf
  induction suf with
  | nil => intro _; rfl
  | cons c rest ih =>
      intro h
      have hc : isWS c = true := h c (by simp)
      simp [containsSeg, prefix_ws_head hp hc, ih (fun x hx => h x (by simp [hx]))]

theorem containsSeg_append_ws {p : Char} {pat' : List Char}
    (hpat : ∀ x ∈ p :: pat', isWS x = false) {suf : List Char}
    (hsuf : ∀ c ∈ suf, isWS c = true) :
    ∀ (m : List Char), containsSeg (p :: pat') (m ++ suf) = containsSeg (p :: pat') m := by
  intro m
  induction m with
  | nil =>
      simp only [List.nil_append]
      rw [containsSeg_all_ws (hpat p (by simp)) suf hsuf]
      rfl
  | cons c m' ih =>
      simp only [List.cons_append, containsSeg, List.append_eq]
      rw [show (c :: (m' ++ suf)) = (c :: m') ++ suf from rfl,
        prefix_append_ws (p :: pat') hpat suf hsuf (c :: m'), ih]

theorem containsSeg_trim {p : Char} {pat' : List Char}
    (hpat : ∀ x ∈ p :: pat', isWS x = false) (l : List Char) :
    containsSeg (p :: pat') (trimS l) = containsSeg (p :: pat') l := by
  have hp : isWS p = false := hpat p (by simp)
  have h1 : containsSeg (p :: pat') l =
      containsSeg (p :: pat') (l.dropWhile isWS) :=
    (containsSeg_dropWhile hp l).symm
  have h2 : containsSeg (p :: pat') (l.dropWhile isWS) =
      containsSeg (p :: pat') (trimS l) := by
    conv_lhs => rw [trim_right_decomp (l.dropWhile isWS)]
    exact containsSeg_append_ws hpat (trim_right_ws (l.dropWhile isWS)) _
  rw [h1, h2]

theorem bannedB_trim (l : List Char) : bannedB (trimS l) = bannedB l := by
  simp only [bannedB]
  rw [bannedKwB_trim l,
    containsSeg_trim (by decide) l,
    containsSeg_trim (by decide) l,
    containsSeg_trim (by decide) l]

/-! ## C6 helper lemmas and theorem support -/

theorem word_ne_colon {c : Char} (h : isWordChar c = true) : c ≠ ':' := by
  intro hc
  subst hc
  simp [isWordChar] at h

theorem idStart_word {c : Char} (h : isIdStart c = true) : isWordChar c = true := by
  simp only [isIdStart, decide_eq_true_eq] at h
  simp only [isWordChar, decide_eq_true_eq]
  tauto

theorem colonRewrite_words {seg rest : List Char}
    (h : ∀ c ∈ seg, isWordChar c = true) :
    colonRewrite (seg ++ rest) = seg ++ colonRewrite rest := by
  induction seg with
  | nil => rfl
  | cons a t ih =>
      have ha : a ≠ ':' := word_ne_colon (h a (by simp))
      have ih' := ih (fun c hc => h c (by simp [hc]))
      simp only [List.cons_append, colonRewrite, ha, false_and, if_false,
        List.append_eq, ih']

theorem toTediousAux_eq_colonRewrite :
    ∀ (fuel : Nat) (l : List Char), l.length < fuel →
      toTediousAux fuel l = colonRewrite l := by
  intro fuel
  induction fuel with
  | zero => intro l h; exact absurd h (by simp)
  | succ f ih =>
      intro l h
      match l with
      | [] => rfl
      | c :: rest =>
          by_cases hc : c = ':'
          · subst hc
            match rest with
            | [] =>
                simp [toTediousAux, colonRewrite, headIsIdStart]
            | d :: rest' =>
                by_cases hid : isIdStart d
                · have hsplit : d :: rest' =
                      (d :: rest'.takeWhile isWordChar) ++ rest'.dropWhile isWordChar := by
                    simp [takeWhile_dropWhile_eq]
                  have hwords : ∀ x ∈ d :: rest'.takeWhile isWordChar, isWordChar x = true := by
                    intro x hx
                    rcases List.mem_cons.mp hx with h1 | h1
                    · exact h1 ▸ idStart_word hid
                    · exact mem_takeWhile_ws h1
                  have hlen : (rest'.dropWhile isWordChar).length < f := by
                    have h1 : (rest'.dropWhile isWordChar).length ≤ rest'.length :=
                      length_dropWhile_le _ _
                    simp only [List.length_cons] at h
                    omega
                  have hrw : colonRewrite (d :: rest') =
                      (d :: rest'.takeWhile isWordChar) ++
                        colonRewrite (rest'.dropWhile isWordChar) := by
                    conv_lhs => rw [hsplit]
                    exact colonRewrite_words hwords
                  have hR : colonRewrite (':' :: d :: rest') =
                      '@' :: colonRewrite (d :: rest') := by
                    simp [colonRewrite, headIsIdStart, hid]
                  have hL : toTediousAux (f + 1) (':' :: d :: rest') =
                      '@' :: d :: (rest'.takeWhile isWordChar ++
                        toTediousAux f (rest'.dropWhile isWordChar)) := by
                    simp [toTediousAux, hid]
                  rw [hL, hR, hrw, ih _ hlen]
                  simp
                · have hlen : (d :: rest').length < f := by
                    simp only [List.length_cons] at h ⊢
                    omega
                  have hL : toTediousAux (f + 1) (':' :: d :: rest') =
                      ':' :: toTediousAux f (d :: rest') := by
                    simp [toTediousAux, hid]
                  rw [hL, ih _ hlen]
                  simp [colonRewrite, headIsIdStart, hid]
          · have hlen : rest.length < f := by
              simp only [List.length_cons] at h
              omega
            simp only [toTediousAux, if_neg hc]
            rw [ih _ hlen]
            simp [colonRewrite, hc]

/-- C6: for every input string, the ParamTranslator rewrites every occurrence
    of `:identifier` (identifier starting with a letter or underscore, then
    letters/digits/underscores) into `@identifier` — including occurrences
    inside quoted string literals, since the scan has no quote awareness —
    and leaves every other character unchanged: the rewrite is exactly the
    pointwise map that turns each `:` immediately followed by an
    identifier-start character into `@`. -/
theorem toTedious_rewrites_every_placeholder (l : List Char) :
    toTediousNamedParams l = colonRewrite l :=
  toTediousAux_eq_colonRewrite (l.length + 1) l (Nat.lt_succ_self _)

/-! ## C5: the binding loop -/

theorem runQueryBindings_mem_inv :
    ∀ (params : List (String × JSVal)) (k : String) (w : WireVal),
      (k, w) ∈ runQueryBindings params →
      ∃ v, (k, v) ∈ params ∧ classifyBind v = some w := by
  intro params
  induction params with
  | nil => intro k w h; simp [runQueryBindings] at h
  | cons p rest ih =>
      intro k w h
      obtain ⟨k', v'⟩ := p
      simp only [runQueryBindings] at h
      cases hc : classifyBind v' with
      | none =>
          rw [hc] at h
          obtain ⟨v, hv, hcl⟩ := ih k w h
          exact ⟨v, List.mem_cons_of_mem _ hv, hcl⟩
      | some w' =>
          rw [hc] at h
          rcases List.mem_cons.mp h with h1 | h1
          · have hk : k = k' := congrArg Prod.fst h1
            have hw : w = w' := congrArg Prod.snd h1
            subst hk; subst hw
            exact ⟨v', List.mem_cons_self _ _, hc⟩
          · obtain ⟨v, hv, hcl⟩ := ih k w h1
            exact ⟨v, List.mem_cons_of_mem _ hv, hcl⟩

theorem runQueryBindings_mem_of :
    ∀ (params : List (String × JSVal)) (k : String) (v : JSVal) (w : WireVal),
      (k, v) ∈ params → classifyBind v = some w →
      (k, w) ∈ runQueryBindings params := by
  intro params
  induction params with
  | nil => intro k v w h; simp at h
  | cons p rest ih =>
      intro k v w hmem hcl
      obtain ⟨k', v'⟩ := p
      rcases List.mem_cons.mp hmem with h1 | h1
      · have hk : k = k' := congrArg Prod.fst h1
        have hv : v = v' := congrArg Prod.snd h1
        subst hk; subst hv
        simp only [runQueryBindings, hcl]
        exact List.mem_cons_self _ _
      · have hrec := ih k v w h1 hcl
        simp only [runQueryBindings]
        cases hc : classifyBind v' with
        | none => exact hrec
        | some w' => exact List.mem_cons_of_mem _ hrec

/-- C5: the binding loop classifies every non-null/non-undefined value into
    exactly one of the five wire types — whole numbers as 32-bit integer
    (`sql.Int`), non-whole numbers as floating point, dates as timestamp,
    booleans as single-bit boolean, everything else as text after string
    conversion — and a key whose value is null/undefined produces no binding. -/
theorem bindings_classification :
    (∀ v, classifyBind v = none ↔ v = JSVal.null) ∧
    (∀ q : ℚ, q.den = 1 → classifyBind (.num q) = some (.wInt q.num)) ∧
    (∀ q : ℚ, q.den ≠ 1 → classifyBind (.num q) = some (.wFloat q)) ∧
    (∀ t, classifyBind (.date t) = some (.wDate t)) ∧
    (∀ b, classifyBind (.bool b) = some (.wBit b)) ∧
    (∀ s, classifyBind (.str s) = some (.wText s)) ∧
    (∀ params k v w, (k, v) ∈ params → classifyBind v = some w →
      (k, w) ∈ runQueryBindings params) ∧
    (∀ params k w, (k, w) ∈ runQueryBindings params →
      ∃ v, (k, v) ∈ params ∧ classifyBind v = some w) ∧
    (∀ params : List (String × JSVal), (params.map Prod.fst).Nodup →
      ∀ k, (k, JSVal.null) ∈ params → ∀ w, (k, w) ∉ runQueryBindings params) := by
  refine ⟨?_, ?_, ?_, ?_, ?_, ?_, ?_, ?_, ?_⟩
  · intro v
    cases v with
    | num q => by_cases h : q.den = 1 <;> simp [classifyBind, h]
    | str s => simp [classifyBind]
    | bool b => simp [classifyBind]
    | date t => simp [classifyBind]
    | null => simp [classifyBind]
  · intro q h; simp [classifyBind, h]
  · intro q h; simp [classifyBind, h]
  · intro t; rfl
  · intro b; rfl
  · intro s; rfl
  · exact runQueryBindings_mem_of
  · exact runQueryBindings_mem_inv
  · intro params
    induction params with
    | nil => intro _ k h; simp at h
    | cons p rest ih =>
        intro hnd k hmem w hbind
        obtain ⟨k', v'⟩ := p
        simp only [List.map_cons, List.nodup_cons] at hnd
        rcases List.mem_cons.mp hmem with h1 | h1
        · have hk : k = k' := congrArg Prod.fst h1
          have hv : JSVal.null = v' := congrArg Prod.snd h1
          subst hk; subst hv
          simp only [runQueryBindings, classifyBind] at hbind
          obtain ⟨v, hv, _⟩ := runQueryBindings_mem_inv rest k w hbind
          exact hnd.1 (List.mem_map_of_mem Prod.fst hv)
        · simp only [runQueryBindings] at hbind
          cases hc : classifyBind v' with
          | none =>
              rw [hc] at hbind
              exact ih hnd.2 k h1 w hbind
          | some w' =>
              rw [hc] at hbind
              rcases List.mem_cons.mp hbind with h2 | h2
              · have hk : k = k' := congrArg Prod.fst h2
                subst hk
                exact hnd.1 (List.mem_map_of_mem Prod.fst h1)
              · exact ih hnd.2 k h1 w h2

/-- Witness for C5 at a concrete params object. -/
theorem bindings_classification_witness :
    classifyBind (.num 5) = some (.wInt 5) ∧
    (("a", WireVal.wInt 5) ∈
      runQueryBindings [("a", JSVal.num 5), ("b", JSVal.null)]) ∧
    (("b", WireVal.wText "x") ∉
      runQueryBindings [("a", JSVal.num 5), ("b", JSVal.null)]) :=
  ⟨bindings_classification.2.1 5 (by decide),
   bindings_classification.2.2.2.2.2.2.1 _ "a" (JSVal.num 5) _ (by decide) (by decide),
   bindings_classification.2.2.2.2.2.2.2.2 _ (by decide) "b" (by decide) (WireVal.wText "x")⟩

/-! ## C8: sample joins -/

/-- C8: a relation with `k` outgoing foreign-key edges yields exactly
    `min k 2` sample-join templates — one per edge, in edge order, each built
    by `mkSampleJoin` as a two-alias inner join on the edge's column pair —
    and a relation with no edges (or an absent edge list) yields none. -/
theorem sampleJoins_min_two :
    (∀ t, getSampleJoins t none = []) ∧
    (∀ t, getSampleJoins t (some []) = []) ∧
    (∀ t l, (getSampleJoins t (some l)).length = min l.length 2) ∧
    (∀ t l i, i < 2 →
      (getSampleJoins t (some l))[i]? = l[i]?.map (mkSampleJoin t)) := by
  refine ⟨fun _ => rfl, fun _ => rfl, ?_, ?_⟩
  · intro t l
    cases l with
    | nil => rfl
    | cons a rest =>
        simp only [getSampleJoins, List.isEmpty_cons, Bool.false_eq_true,
          if_false, List.length_map, List.length_take, List.length_cons]
        omega
  · intro t l i hi
    cases l with
    | nil => cases i <;> simp [getSampleJoins]
    | cons a rest =>
        have hne : (a :: rest : List FKEdge).isEmpty = false := rfl
        simp only [getSampleJoins, hne, Bool.false_eq_true, if_false]
        rw [List.getElem?_map, List.getElem?_take_of_lt hi]

/-- Witness for C8 at a relation with three edges. -/
theorem sampleJoins_min_two_witness :
    (getSampleJoins "SalesLT.A"
      (some [⟨"c1", "SalesLT.B", "d1"⟩, ⟨"c2", "C", "d2"⟩,
             ⟨"c3", "D", "d3"⟩])).length = min 3 2 ∧
    (getSampleJoins "SalesLT.A"
      (some [⟨"c1", "SalesLT.B", "d1"⟩, ⟨"c2", "C", "d2"⟩,
             ⟨"c3", "D", "d3"⟩]))[1]? =
      ([⟨"c1", "SalesLT.B", "d1"⟩, ⟨"c2", "C", "d2"⟩,
        ⟨"c3", "D", "d3"⟩] : List FKEdge)[1]?.map (mkSampleJoin "SalesLT.A") :=
  ⟨sampleJoins_min_two.2.2.1 "SalesLT.A" _,
   sampleJoins_min_two.2.2.2 "SalesLT.A" _ 1 (by decide)⟩

/-! ## C9: the catalog never leaks relations outside the resolved set -/

/-- C9: every relation entry of the assembled catalog body carries a
    schema-qualified name that belongs to the relation set produced by the
    resolver for that request. -/
theorem catalog_within_resolved_set
    (headerMode bodyMode : Option String) (clientFilter : Option (List String))
    (cfg : SchemaConfig) (viewRows tableRows : List (String × String))
    (fallbackRows : List FallbackRow) (colRows : List ColRow)
    (pkRows : List PkRow) (fkRows : List FkRow) (nowUtc : String) :
    ∀ e ∈ (schemaHandler headerMode bodyMode clientFilter cfg viewRows tableRows
            fallbackRows colRows pkRows fkRows nowUtc).2.tables,
      e.name ∈ (resolveObjects
          (effectiveMode headerMode bodyMode cfg.objectTypesDefault)
          clientFilter cfg viewRows tableRows fallbackRows).1.map qnameOf := by
  intro e he
  simp only [schemaHandler] at he
  split at he
  · simp at he
  · simp only [buildTables, List.mem_map] at he
    obtain ⟨qn, hqn, rfl⟩ := he
    exact List.mem_map.mpr hqn

/-- Witness for C9 at a concrete request (one resolved view). -/
theorem catalog_within_resolved_set_witness :
    ∃ e ∈ (schemaHandler none none none
            ⟨"vw%", "views", [], "tables,views", []⟩
            [("dbo", "vwUsers")] [] [] [] [] [] "t").2.tables,
      e.name ∈ (resolveObjects
          (effectiveMode none none (SchemaConfig.mk "vw%" "views" [] "tables,views" []).objectTypesDefault)
          none ⟨"vw%", "views", [], "tables,views", []⟩
          [("dbo", "vwUsers")] [] []).1.map qnameOf := by
  refine ⟨(buildTables ["dbo.vwUsers"] [] [] []).head (by decide), ?_, ?_⟩
  · exact List.head_mem _
  · exact catalog_within_resolved_set none none none
      ⟨"vw%", "views", [], "tables,views", []⟩ [("dbo", "vwUsers")] [] [] [] [] [] "t"
      _ (List.head_mem _)

/-! ## C10: unrecognised object-types mode -/

/-- C10: when the effective object-types mode is none of `views`, `tables`,
    `both`, the schema endpoint consults none of the enumeration results and
    returns a 200 response with an empty tables list and the fixed common
    query templates. -/
theorem unknown_mode_empty_success
    (headerMode bodyMode : Option String) (clientFilter : Option (List String))
    (cfg : SchemaConfig) (viewRows tableRows : List (String × String))
    (fallbackRows : List FallbackRow) (colRows : List ColRow)
    (pkRows : List PkRow) (fkRows : List FkRow) (nowUtc : String)
    (h1 : effectiveMode headerMode bodyMode cfg.objectTypesDefault ≠ "views")
    (h2 : effectiveMode headerMode bodyMode cfg.objectTypesDefault ≠ "tables")
    (h3 : effectiveMode headerMode bodyMode cfg.objectTypesDefault ≠ "both") :
    schemaHandler headerMode bodyMode clientFilter cfg viewRows tableRows
        fallbackRows colRows pkRows fkRows nowUtc =
      (200, { tables := []
              common_queries := getCommonQueryTemplates
              generated_at_utc := nowUtc
              notes := "Mode=" ++
                effectiveMode headerMode bodyMode cfg.objectTypesDefault ++
                "; views LIKE " ++ cfg.viewWhitelist ++
                "; tables from allow-list" }) := by
  simp [schemaHandler, resolveObjects, h1, h2, h3]

/-- Witness for C10 at the concrete misspelled mode `viewz`. -/
theorem unknown_mode_empty_success_witness :
    schemaHandler (some "viewz") none none
        ⟨"vw%", "both", ["SalesLT.Customer"], "tables,views", ["sys"]⟩
        [("dbo", "vwUsers")] [("SalesLT", "Customer")]
        [⟨"dbo", "T", "U"⟩] [] [] [] "2025-01-01T00:00:00Z" =
      (200, { tables := []
              common_queries := getCommonQueryTemplates
              generated_at_utc := "2025-01-01T00:00:00Z"
              notes := "Mode=viewz; views LIKE vw%; tables from allow-list" }) :=
  unknown_mode_empty_success (some "viewz") none none
    ⟨"vw%", "both", ["SalesLT.Customer"], "tables,views", ["sys"]⟩
    [("dbo", "vwUsers")] [("SalesLT", "Customer")]
    [⟨"dbo", "T", "U"⟩] [] [] [] "2025-01-01T00:00:00Z"
    (by decide) (by decide) (by decide)

/-! ## C4: the effective row limit -/

/-- C4 (amended): whenever the limit computation produces a number at all, it
    is an integer in `[1, 5000]`; an omitted or falsy `row_limit` applies the
    configured default and clamps it into the range.  (A truthy `row_limit`
    that does not parse to a number yields NaN — see the counterexample.) -/
theorem effectiveLimit_clamped :
    (∀ rl dflt k, effectiveLimit rl dflt = some k → 1 ≤ k ∧ k ≤ 5000) ∧
    (∀ dflt : Int, effectiveLimit none dflt = some (max 1 (min dflt 5000))) ∧
    (∀ v dflt, truthy v = false →
      effectiveLimit (some v) dflt = some (max 1 (min dflt 5000))) := by
  refine ⟨?_, fun _ => rfl, ?_⟩
  · intro rl dflt k h
    simp only [effectiveLimit] at h
    rw [Option.map_eq_some'] at h
    obtain ⟨x, -, rfl⟩ := h
    exact ⟨le_max_left _ _, max_le (by norm_num) (min_le_right x 5000)⟩
  · intro v dflt h
    simp [effectiveLimit, h]

/-- Witness for C4 (amended) at concrete limits. -/
theorem effectiveLimit_clamped_witness :
    (1 ≤ (7 : Int) ∧ (7 : Int) ≤ 5000) ∧
    effectiveLimit (some (JSVal.bool false)) 200 = some (max 1 (min 200 5000)) :=
  ⟨effectiveLimit_clamped.1 (some (.num 7)) 200 7 (by decide),
   effectiveLimit_clamped.2.2 (.bool false) 200 (by decide)⟩

/-- C4 counterexample: with `row_limit` the (truthy, non-numeric) string
    `"abc"`, `parseInt` yields NaN and the computed limit is NaN (`none`) —
    not an integer in `[1, 5000]` as the claim states. -/
theorem effectiveLimit_nan_counterexample :
    ¬ ∃ k : Int, effectiveLimit (some (JSVal.str "abc")) 200 = some k ∧
      1 ≤ k ∧ k ≤ 5000 := by
  rintro ⟨k, hk, -⟩
  have h0 : effectiveLimit (some (JSVal.str "abc")) 200 = none := by decide
  rw [h0] at hk
  exact Option.noConfusion hk

/-! ## C1: banned tokens are always rejected -/

/-- C1: any input that contains a banned keyword as a whole word (any case),
    a semicolon, a line-comment marker `--`, or a block-comment marker `/*`
    makes the Validator raise a `ValidationError` instead of returning
    normally. -/
theorem validator_rejects_banned (l : List Char) (h : bannedB l = true) :
    ∃ e, validateSelectOnly l = .error e := by
  unfold validateSelectOnly
  by_cases hs : startsSelectWsB (trimS l)
  · have hb : bannedB (trimS l) = true := by rw [bannedB_trim l]; exact h
    exact ⟨.banned, by simp [hs, hb]⟩
  · exact ⟨.notSelect, by simp [hs]⟩

/-- Witness for C1 at `SELECT 1; DROP TABLE X`. -/
theorem validator_rejects_banned_witness :
    bannedB ("SELECT 1; DROP TABLE X".data) = true ∧
    ∃ e, validateSelectOnly ("SELECT 1; DROP TABLE X".data) = .error e :=
  ⟨by decide, validator_rejects_banned _ (by decide)⟩

/-! ## C3: the leading-SELECT check -/

/-- C3 counterexample: the trimmed text `select(1)` starts with the SELECT
    keyword at a word boundary (`(` is not a word character), yet the
    Validator rejects it with the not-a-SELECT error, because the code
    demands a whitespace character (`/^select\s/i`) rather than a word
    boundary after the keyword. -/
theorem selectCheck_word_boundary_counterexample :
    startsSelectWordBoundary (trimS ("select(1)".data)) = true ∧
    validateSelectOnly ("select(1)".data) = .error .notSelect := by
  constructor <;> decide

/-- C3 (amended): the Validator trims the input and raises the not-a-SELECT
    `ValidationError` exactly when the trimmed text does not start with the
    SELECT keyword followed by a whitespace character — stricter than a word
    boundary: `select(...)` or a bare `select` are also rejected. -/
theorem selectCheck_iff_ws (l : List Char) :
    validateSelectOnly l = .error .notSelect ↔
      startsSelectWsB (trimS l) = false := by
  unfold validateSelectOnly
  cases hs : startsSelectWsB (trimS l) with
  | false => simp [hs]
  | true =>
      simp only [hs, Bool.not_true, Bool.false_eq_true, if_false]
      by_cases hb : bannedB (trimS l)
      · simp [hb]
      · simp [hb]

/-- Witness for C3 (amended): a rejected and an accepted side. -/
theorem selectCheck_iff_ws_witness :
    validateSelectOnly ("drop table t".data) = .error .notSelect ∧
    validateSelectOnly ("SELECT 1".data) ≠ .error .notSelect :=
  ⟨(selectCheck_iff_ws _).mpr (by decide),
   fun h => by
     have := (selectCheck_iff_ws ("SELECT 1".data)).mp h
     exact absurd this (by decide)⟩

/-! ## `injectTopLimit` support lemmas (for C2 and C7) -/

theorem ciStartsWith_take_append :
    ∀ (kw l : List Char), ciStartsWith kw l = true →
      ∀ z, ciStartsWith kw (l.take kw.length ++ z) = true := by
  intro kw
  induction kw with
  | nil => intro l _ z; rfl
  | cons k kw' ih =>
      intro l h z
      match l with
      | [] => exact absurd h (by simp [ciStartsWith])
      | c :: t =>
          simp only [ciStartsWith, Bool.and_eq_true] at h
          simp only [List.length_cons, List.take_succ_cons, List.cons_append,
            ciStartsWith, Bool.and_eq_true]
          exact ⟨h.1, ih t h.2 z⟩

theorem ciStartsWith_min_length :
    ∀ (kw l : List Char), ciStartsWith kw l = true → kw.length ≤ l.length := by
  intro kw
  induction kw with
  | nil => intro l _; simp
  | cons k kw' ih =>
      intro l h
      match l with
      | [] => exact absurd h (by simp [ciStartsWith])
      | c :: t =>
          simp only [ciStartsWith, Bool.and_eq_true] at h
          simp only [List.length_cons]
          exact Nat.succ_le_succ (ih t h.2)

theorem lower_s_not_ws {a : Char} (h : asciiLower a = 's') : isWS a = false := by
  by_cases hws : isWS a
  · rw [ws_lower_id hws] at h
    subst h
    exact absurd hws (by decide)
  · simp only [Bool.not_eq_true] at hws
    exact hws

theorem select_head_lower {a : Char} {t : List Char}
    (h : ciStartsWith selectKw (a :: t) = true) : asciiLower a = 's' := by
  simp only [selectKw, ciStartsWith, Bool.and_eq_true] at h
  exact beq_iff_eq.mp h.1

theorem drop_length_append (a b : List Char) : (a ++ b).drop a.length = b := by
  simp

theorem drop_of_length_eq {a : List Char} {k : Nat} (h : a.length = k)
    (b : List Char) : (a ++ b).drop k = b := by
  subst h
  exact drop_length_append a b

theorem hasTopAux_after_ws :
    ∀ (a : List Char), (∀ c ∈ a, isWS c = true) →
      ∀ (m : List Char), hasTopAux true m = true →
        hasTopAux true (a ++ m) = true := by
  intro a
  induction a with
  | nil => intro _ m h; exact h
  | cons c a' ih =>
      intro hws m h
      have hc : isWS c = true := hws c (by simp)
      simp only [List.cons_append, hasTopAux, Bool.or_eq_true]
      right
      rw [ws_not_word hc]
      exact ih (fun x hx => hws x (by simp [hx])) m h

theorem topClauseHead_topInsert (n : Nat) (z : List Char) :
    topClauseHead (topInsert n ++ z) = true := rfl

theorem natCharsAux_digits :
    ∀ (fuel n : Nat) (acc : List Char), (∀ c ∈ acc, c.isDigit = true) →
      ∀ c ∈ natCharsAux fuel n acc, c.isDigit = true := by
  intro fuel
  induction fuel with
  | zero => intro n acc hacc c hc; exact hacc c hc
  | succ f ih =>
      intro n acc hacc c hc
      have hdig : ∀ d : Nat, d < 10 → (digitChar d).isDigit = true := by
        intro d hd
        interval_cases d <;> decide
      simp only [natCharsAux] at hc
      by_cases hn : n < 10
      · rw [if_pos hn] at hc
        rcases List.mem_cons.mp hc with rfl | hmem
        · exact hdig n hn
        · exact hacc c hmem
      · rw [if_neg hn] at hc
        refine ih (n / 10) _ ?_ c hc
        intro x hx
        rcases List.mem_cons.mp hx with rfl | hmem
        · exact hdig (n % 10) (Nat.mod_lt _ (by norm_num))
        · exact hacc x hmem

theorem natChars_digits (n : Nat) : ∀ c ∈ natChars n, c.isDigit = true :=
  natCharsAux_digits (n + 1) n [] (by simp)

theorem dropWhile_ws_topInsert (n : Nat) (z : List Char) :
    (topInsert n ++ z).dropWhile isWS = topInsert n ++ z := rfl

/-- The inserted text, preceded by the whitespace run that followed the
    SELECT keyword, scans as a `TOP` clause. -/
theorem dropWhile_ws1_topInsert {ws1 : List Char}
    (hall : ∀ c ∈ ws1, isWS c = true) (n : Nat) (z : List Char) :
    (ws1 ++ (topInsert n ++ z)).dropWhile isWS = topInsert n ++ z := by
  rw [dropWhile_append_all hall, dropWhile_ws_topInsert]

theorem consumeTopClause_topInsert (n : Nat) (z : List Char) :
    consumeTopClause (topInsert n ++ z) = ' ' :: z := by
  have hne : ∀ c ∈ natChars n, (!(c = ')' : Bool)) = true := by
    intro c hc
    have hd : c.isDigit = true := natChars_digits n c hc
    have hcc : c ≠ ')' := by
      intro h
      rw [h] at hd
      exact absurd hd (by decide)
    simp [hcc]
  show ((natChars n ++ [')', ' '] ++ z).dropWhile (fun c => !(c = ')'))).drop 1 =
    ' ' :: z
  have hassoc : natChars n ++ [')', ' '] ++ z = natChars n ++ (')' :: ' ' :: z) := by
    simp
  rw [hassoc, dropWhile_append_all hne, dropWhile_head_false (by decide)]
  rfl

/-- After a successful leading match of the injection regex, the rewritten
    text carries a well-formed `TOP` clause right after its leading SELECT. -/
theorem topAfterSelectAt_insertion (r : List Char) (n : Nat)
    (hsel : ciStartsWith selectKw r = true)
    (hws1 : ((r.drop 6).takeWhile isWS).isEmpty = false) :
    topAfterSelectAt (r.take 6 ++ ((r.drop 6).takeWhile isWS ++
      (topInsert n ++ (r.drop 6).dropWhile isWS))) = true := by
  have hlen : 6 ≤ r.length := ciStartsWith_min_length selectKw r hsel
  have hsel6 : (r.take 6).length = 6 := by
    simp only [List.length_take]
    omega
  have hci : ciStartsWith selectKw
      (r.take 6 ++ ((r.drop 6).takeWhile isWS ++
        (topInsert n ++ (r.drop 6).dropWhile isWS))) = true :=
    ciStartsWith_take_append selectKw r hsel _
  have hdrop : (r.take 6 ++ ((r.drop 6).takeWhile isWS ++
      (topInsert n ++ (r.drop 6).dropWhile isWS))).drop 6 =
      (r.drop 6).takeWhile isWS ++ (topInsert n ++ (r.drop 6).dropWhile isWS) :=
    drop_of_length_eq hsel6 _
  have hall : ∀ c ∈ (r.drop 6).takeWhile isWS, isWS c = true :=
    fun c hc => mem_takeWhile_ws hc
  obtain ⟨w, tl, hw⟩ : ∃ w tl, (r.drop 6).takeWhile isWS = w :: tl := by
    cases hws : (r.drop 6).takeWhile isWS with
    | nil => rw [hws] at hws1; exact absurd hws1 (by simp)
    | cons w tl => exact ⟨w, tl, rfl⟩
  have hwws : isWS w = true := hall w (by simp [hw])
  have hhd : headIsWS (((r.drop 6).takeWhile isWS) ++
      (topInsert n ++ (r.drop 6).dropWhile isWS)) = true := by
    rw [hw]
    simp only [List.cons_append, headIsWS]
    exact hwws
  have hdw : (((r.drop 6).takeWhile isWS) ++
      (topInsert n ++ (r.drop 6).dropWhile isWS)).dropWhile isWS =
      topInsert n ++ (r.drop 6).dropWhile isWS :=
    dropWhile_ws1_topInsert hall n _
  unfold topAfterSelectAt startsSelectWsB
  rw [hdrop, hci, hhd, hdw, topClauseHead_topInsert]
  rfl

/-- The shape of `injectTopLimit` when the leading regex matched and no
    `select top` pattern was present. -/
theorem inject_eq_insert {l : List Char} {n : Nat}
    (h : hasTopB l = false)
    (hsel : ciStartsWith selectKw (l.dropWhile isWS) = true)
    (hws1 : (((l.dropWhile isWS).drop 6).takeWhile isWS).isEmpty = false) :
    injectTopLimit l n = l.takeWhile isWS ++ ((l.dropWhile isWS).take 6 ++
      (((l.dropWhile isWS).drop 6).takeWhile isWS ++ (topInsert n ++
        ((l.dropWhile isWS).drop 6).dropWhile isWS))) := by
  simp [injectTopLimit, h, hsel, hws1]

/-- The rewritten text always carries the `select top` pattern. -/
theorem hasTopB_insert {l : List Char} {n : Nat}
    (hsel : ciStartsWith selectKw (l.dropWhile isWS) = true)
    (hws1 : (((l.dropWhile isWS).drop 6).takeWhile isWS).isEmpty = false) :
    hasTopB (l.takeWhile isWS ++ ((l.dropWhile isWS).take 6 ++
      (((l.dropWhile isWS).drop 6).takeWhile isWS ++ (topInsert n ++
        ((l.dropWhile isWS).drop 6).dropWhile isWS)))) = true := by
  have hins := topAfterSelectAt_insertion (l.dropWhile isWS) n hsel hws1
  obtain ⟨rc, rt, hr⟩ : ∃ rc rt, l.dropWhile isWS = rc :: rt := by
    cases hrr : l.dropWhile isWS with
    | nil => rw [hrr] at hsel; exact absurd hsel (by decide)
    | cons rc rt => exact ⟨rc, rt, rfl⟩
  have hM : (l.dropWhile isWS).take 6 ++
      (((l.dropWhile isWS).drop 6).takeWhile isWS ++ (topInsert n ++
        ((l.dropWhile isWS).drop 6).dropWhile isWS)) =
      rc :: (rt.take 5 ++ (((l.dropWhile isWS).drop 6).takeWhile isWS ++
        (topInsert n ++ ((l.dropWhile isWS).drop 6).dropWhile isWS))) := by
    rw [hr]
    simp
  have hM' : hasTopAux true ((l.dropWhile isWS).take 6 ++
      (((l.dropWhile isWS).drop 6).takeWhile isWS ++ (topInsert n ++
        ((l.dropWhile isWS).drop 6).dropWhile isWS))) = true := by
    rw [hM]
    rw [hM] at hins
    simp only [hasTopAux, Bool.or_eq_true, Bool.and_eq_true]
    left
    exact ⟨trivial, hins⟩
  have := hasTopAux_after_ws (l.takeWhile isWS)
    (fun c hc => mem_takeWhile_ws hc) _ hM'
  exact this

/-- C7: the LimitInjector is idempotent, and an input whose leading SELECT is
    already followed by a `TOP` clause (parenthesized or bare numeric) is
    returned unchanged. -/
theorem injectTop_idempotent :
    (∀ (l : List Char) (n : Nat),
      injectTopLimit (injectTopLimit l n) n = injectTopLimit l n) ∧
    (∀ (l : List Char) (n : Nat),
      topAfterSelectAt (l.dropWhile isWS) = true → injectTopLimit l n = l) := by
  have hlead : ∀ (l : List Char) (n : Nat),
      topAfterSelectAt (l.dropWhile isWS) = true → injectTopLimit l n = l := by
    intro l n h
    obtain ⟨c, t, hd⟩ : ∃ c t, l.dropWhile isWS = c :: t := by
      cases hdd : l.dropWhile isWS with
      | nil => rw [hdd] at h; exact absurd h (by decide)
      | cons c t => exact ⟨c, t, rfl⟩
    have hm : hasTopAux true (l.dropWhile isWS) = true := by
      rw [hd]
      rw [hd] at h
      simp only [hasTopAux, Bool.or_eq_true, Bool.and_eq_true]
      left
      exact ⟨trivial, h⟩
    have htop : hasTopB l = true := by
      have hpre := hasTopAux_after_ws (l.takeWhile isWS)
        (fun x hx => mem_takeWhile_ws hx) _ hm
      rw [takeWhile_dropWhile_eq] at hpre
      exact hpre
    simp [injectTopLimit, htop]
  refine ⟨?_, hlead⟩
  intro l n
  by_cases h : hasTopB l
  · have e : injectTopLimit l n = l := by simp [injectTopLimit, h]
    rw [e]
    exact e
  · have h' : hasTopB l = false := by simpa using h
    by_cases hsel : ciStartsWith selectKw (l.dropWhile isWS)
    · by_cases hws1 : ((((l.dropWhile isWS).drop 6).takeWhile isWS)).isEmpty
      · have e : injectTopLimit l n = l := by
          simp [injectTopLimit, h', hsel, hws1]
        rw [e]
        exact e
      · have hws1' : ((((l.dropWhile isWS).drop 6).takeWhile isWS)).isEmpty = false := by
          simpa using hws1
        have e := inject_eq_insert (n := n) h' hsel hws1'
        have htopR := hasTopB_insert (n := n) hsel hws1'
        rw [e]
        simp [injectTopLimit, htopR]
    · have hsel' : ciStartsWith selectKw (l.dropWhile isWS) = false := by
        simpa using hsel
      have e : injectTopLimit l n = l := by
        simp [injectTopLimit, h', hsel']
      rw [e]
      exact e

/-- Witness for C7 at concrete inputs. -/
theorem injectTop_idempotent_witness :
    injectTopLimit (injectTopLimit ("select * from vwUsers".data) 200) 200 =
      injectTopLimit ("select * from vwUsers".data) 200 ∧
    injectTopLimit ("SELECT TOP(5) * FROM vwUsers".data) 200 =
      "SELECT TOP(5) * FROM vwUsers".data :=
  ⟨injectTop_idempotent.1 _ 200,
   injectTop_idempotent.2 _ 200 (by decide)⟩

/-! ## C2: exactly one top-level limiting clause -/

theorem validate_ok_inv {l s : List Char} (h : validateSelectOnly l = .ok s) :
    s = trimS l ∧ startsSelectWsB s = true := by
  unfold validateSelectOnly at h
  by_cases hs : startsSelectWsB (trimS l)
  · by_cases hb : bannedB (trimS l)
    · simp [hs, hb] at h
    · simp [hs, hb] at h
      exact ⟨h.symm, h ▸ hs⟩
  · simp [hs] at h

/-- C2 (amended): for a validated statement `s` and any limit, the injector
    output carries exactly one `TOP` clause directly after the leading SELECT
    keyword — provided no `select top` pattern occurs anywhere in `s`; when
    such a pattern occurs anywhere (including inside a subquery), the text is
    passed through unchanged, so a nested `TOP` suppresses the top-level
    injection and the top-level count can be zero. -/
theorem injectTop_exactly_one (l s : List Char) (n : Nat)
    (hok : validateSelectOnly l = .ok s) :
    (hasTopB s = false → topLevelTopCount (injectTopLimit s n) = 1) ∧
    (hasTopB s = true → injectTopLimit s n = s) := by
  obtain ⟨htrim, hsws⟩ := validate_ok_inv hok
  constructor
  · intro h2
    have hparts := hsws
    unfold startsSelectWsB at hparts
    rw [Bool.and_eq_true] at hparts
    obtain ⟨hci, hhd⟩ := hparts
    obtain ⟨a, s', hs⟩ : ∃ a s', s = a :: s' := by
      cases hss : s with
      | nil => rw [hss] at hci; exact absurd hci (by decide)
      | cons a s' => exact ⟨a, s', rfl⟩
    have ha : isWS a = false := lower_s_not_ws (select_head_lower (hs ▸ hci))
    have hsdw : s.dropWhile isWS = s := by
      rw [hs]; exact dropWhile_head_false ha
    have hstw : s.takeWhile isWS = [] := by
      rw [hs]; simp [List.takeWhile_cons, ha]
    obtain ⟨c6, t6, hd6⟩ : ∃ c6 t6, s.drop 6 = c6 :: t6 := by
      cases hdd : s.drop 6 with
      | nil => rw [hdd] at hhd; exact absurd hhd (by decide)
      | cons c6 t6 => exact ⟨c6, t6, rfl⟩
    have hc6 : isWS c6 = true := by
      rw [hd6] at hhd; exact hhd
    have hws1 : ((s.drop 6).takeWhile isWS).isEmpty = false := by
      rw [hd6]
      simp [List.takeWhile_cons, hc6]
    have hselR : ciStartsWith selectKw (s.dropWhile isWS) = true := by
      rw [hsdw]; exact hci
    have hws1R : (((s.dropWhile isWS).drop 6).takeWhile isWS).isEmpty = false := by
      rw [hsdw]; exact hws1
    have e := inject_eq_insert (n := n) h2 hselR hws1R
    rw [hsdw, hstw, List.nil_append] at e
    set ws1 := (s.drop 6).takeWhile isWS with hws1def
    set rest2 := (s.drop 6).dropWhile isWS with hrest2def
    set R := s.take 6 ++ (ws1 ++ (topInsert n ++ rest2)) with hRdef
    rw [e]
    have hlen6 : (s.take 6).length = 6 := by
      have hl : 6 ≤ s.length := ciStartsWith_min_length selectKw s hci
      simp only [List.length_take]
      omega
    have hRdrop6 : R.drop 6 = ws1 ++ (topInsert n ++ rest2) := by
      rw [hRdef]
      exact drop_of_length_eq hlen6 _
    obtain ⟨Rt, hR⟩ : ∃ Rt, R = a :: Rt :=
      ⟨s'.take 5 ++ (ws1 ++ (topInsert n ++ rest2)), by rw [hRdef, hs]; rfl⟩
    have hRdw : R.dropWhile isWS = R := by
      rw [hR]; exact dropWhile_head_false ha
    have hciR : ciStartsWith selectKw R = true := by
      rw [hRdef]
      exact ciStartsWith_take_append selectKw s hci _
    have hallws1 : ∀ c ∈ ws1, isWS c = true :=
      fun c hc => mem_takeWhile_ws (hws1def ▸ hc)
    obtain ⟨w, tlw, hwtl⟩ : ∃ w tlw, ws1 = w :: tlw := by
      cases hww : ws1 with
      | nil => rw [hww] at hws1; exact absurd hws1 (by simp)
      | cons w tlw => exact ⟨w, tlw, rfl⟩
    have hhdR : headIsWS (R.drop 6) = true := by
      rw [hRdrop6, hwtl]
      simp only [List.cons_append, headIsWS]
      exact hallws1 w (by simp [hwtl])
    have hswsR : startsSelectWsB R = true := by
      unfold startsSelectWsB
      rw [hciR, hhdR]
      rfl
    have hdwZ : (ws1 ++ (topInsert n ++ rest2)).dropWhile isWS =
        topInsert n ++ rest2 := dropWhile_ws1_topInsert hallws1 n _
    have hts : topAfterSelectAt s = false := by
      cases hta : topAfterSelectAt s with
      | false => rfl
      | true =>
          exfalso
          have hforce : hasTopB s = true := by
            rw [hs]
            rw [hs] at hta
            simp [hasTopB, hasTopAux, hta]
          rw [hforce] at h2
          exact Bool.noConfusion h2
    have htcr2 : topClauseHead rest2 = false := by
      unfold topAfterSelectAt at hts
      rw [hsws] at hts
      simpa using hts
    have hdwsp : (' ' :: rest2).dropWhile isWS = rest2 := by
      rw [List.dropWhile_cons]
      simp only [show isWS ' ' = true from rfl, if_true]
      rw [hrest2def]
      exact dropWhile_idem _
    unfold topLevelTopCount
    rw [hRdw, hswsR, if_pos rfl, hRdrop6]
    rw [countTopsAux, hdwZ, topClauseHead_topInsert, if_pos rfl,
      consumeTopClause_topInsert]
    rw [hR, List.length_cons]
    rw [countTopsAux, hdwsp, htcr2]
    rfl
  · intro h2
    simp [injectTopLimit, h2]

/-- Witness for C2 (amended) at concrete inputs. -/
theorem injectTop_exactly_one_witness :
    topLevelTopCount (injectTopLimit ("select * from vwUsers".data) 200) = 1 ∧
    injectTopLimit ("SELECT TOP 5 * FROM t".data) 200 =
      "SELECT TOP 5 * FROM t".data :=
  ⟨(injectTop_exactly_one ("select * from vwUsers".data)
      ("select * from vwUsers".data) 200 (by decide)).1 (by decide),
   (injectTop_exactly_one ("SELECT TOP 5 * FROM t".data)
      ("SELECT TOP 5 * FROM t".data) 200 (by decide)).2 (by decide)⟩

/-- C2 counterexample: `SELECT x FROM (SELECT TOP(5) y FROM t) z` is accepted
    by the Validator and 10 is a limit in `[1, 5000]`, yet the injector
    returns the text unchanged (the nested `SELECT TOP` suppresses the
    rewrite) and the statement sent onward has zero row-limiting clauses
    after its leading SELECT keyword — not exactly one. -/
theorem injectTop_exactly_one_counterexample :
    validateSelectOnly ("SELECT x FROM (SELECT TOP(5) y FROM t) z".data) =
      .ok ("SELECT x FROM (SELECT TOP(5) y FROM t) z".data) ∧
    (1 ≤ 10 ∧ 10 ≤ 5000) ∧
    injectTopLimit ("SELECT x FROM (SELECT TOP(5) y FROM t) z".data) 10 =
      "SELECT x FROM (SELECT TOP(5) y FROM t) z".data ∧
    topLevelTopCount
      (injectTopLimit ("SELECT x FROM (SELECT TOP(5) y FROM t) z".data) 10) = 0 := by
  refine ⟨by decide, ⟨by decide, by decide⟩, by decide, by decide⟩
